import Mathlib

/-!
Shallow embedding of the betting-game auction engine (`src/app.js`, the
game-mode version) in Lean 4.  Player ids are modelled as naturals, money
as integers (JS integer arithmetic), and `roundsWon` as rationals (the
source accumulates the fractional win credits 1, 0.5, 0.4, 0.3, 0.2).
The per-round bid ledger (a JS object keyed by player id, insertion
ordered) is modelled as an association list.  The source computes the
highest / second-highest / third-highest bids by sorting the ledger
descending by amount and probing the sorted list; here they are embedded
as maxima of the corresponding filtered amount lists, which agree with
first-match probes on a descending-sorted list.  HTTP routes become
functions returning `Except`: a route that fails validation performs no
mutation in the source, so an `.error` result stands for the unchanged
game.
-/

namespace BettingGame

/-- Auction mode of a game (`gameMode` in app.js): all-pay, standard or
vickrey. -/
inductive GameMode where
  | allPay
  | standard
  | vickrey
deriving DecidableEq, Repr

/-- Lifecycle phase of a game (`game.status`). -/
inductive Status where
  | waiting
  | betting
  | roundComplete
  | gameComplete
deriving DecidableEq, Repr

/-- Error taxonomy of rejected requests (spec section 7). -/
inductive Err where
  | notFound
  | forbidden
  | invalidState
  | invalidInput
deriving DecidableEq, Repr

/-- A player record as created by the create/join routes. -/
structure Player where
  id : Nat
  name : String
  money : Int
  roundsWon : Rat
  host : Bool
deriving DecidableEq, Repr

/-- A game record as held in the in-memory registry.  Fields mirror the
object literal built by the create route plus the fields later routes
attach (`lastRoundBets`, `showRoundResults`, `secondHighestBid`,
`thirdHighestBid`, `actualPayments`).  `roundWinners` is `none` when the
source holds `null`. -/
structure Game where
  gameMode : GameMode
  players : List Player
  currentRound : Nat
  totalRounds : Nat
  roundsToWin : Rat
  status : Status
  bets : List (Nat × Int)
  roundWinners : Option (List Nat)
  overallWinner : Option Player
  lastRoundBets : List (Nat × Int)
  showRoundResults : Bool
  secondHighestBid : Option Int
  thirdHighestBid : Option Int
  actualPayments : List (Nat × Int)
deriving DecidableEq, Repr

/-- `getTotalRoundsForPlayerCount` from app.js. -/
def getTotalRoundsForPlayerCount (playerCount : Nat) : Nat :=
  if playerCount ≤ 2 then 5
  else if playerCount = 3 then 7
  else 9

/-- `getFractionalWinAmount` from app.js: win credit per winner, keyed by
the number of tied winners. -/
def getFractionalWinAmount (numWinners : Nat) : Rat :=
  if numWinners ≤ 1 then 1
  else match numWinners with
    | 2 => 1/2
    | 3 => 2/5
    | 4 => 3/10
    | _ => 1/5

/-- Lookup of a bid in the ledger (`game.bets[playerId]`; `none` when the
player has not bid). -/
def betLookup (pid : Nat) : List (Nat × Int) → Option Int
  | [] => none
  | (k, v) :: rest => if k = pid then some v else betLookup pid rest

/-- The ids of a game's players. -/
def idsOf (g : Game) : List Nat := g.players.map Player.id

/-- The list of submitted bid amounts. -/
def amountsOf (bets : List (Nat × Int)) : List Int := bets.map Prod.snd

/-- The highest bid (`bids[0].amount` after the descending sort in
`completeRound`); 0 as a dummy for an empty ledger, which the source
never reaches past its early return. -/
def highestBidOf (bets : List (Nat × Int)) : Int :=
  (amountsOf bets).max?.getD 0

/-- The highest bidders: every player id whose bid equals the highest
bid (`bids.filter(bid => bid.amount === highestBid)`). -/
def highestBiddersOf (bets : List (Nat × Int)) : List Nat :=
  (bets.filter (fun b => b.2 = highestBidOf bets)).map Prod.fst

/-- The second-highest bid of `completeRound`: defined only when the
ledger has at least two entries, as the largest amount strictly below
the highest bid (the first such entry of the descending-sorted list). -/
def secondHighestOf (bets : List (Nat × Int)) : Option Int :=
  if bets.length > 1 then
    ((amountsOf bets).filter (fun a => a < highestBidOf bets)).max?
  else none

/-- The third-highest bid of `completeRound`: computed only when the
ledger has more than two entries and there is a tie for first place, as
the largest amount among players outside the highest-bidder set. -/
def thirdHighestOf (bets : List (Nat × Int)) : Option Int :=
  if bets.length > 2 ∧ (highestBiddersOf bets).length > 1 then
    (amountsOf (bets.filter (fun b => ¬ (highestBiddersOf bets).contains b.1))).max?
  else none

/-- Win credit each tied winner receives in `completeRound`: the source
adds literal `1` for a solo winner and `getFractionalWinAmount` for
ties (the two agree at one winner). -/
def creditOf (bets : List (Nat × Int)) : Rat :=
  if (highestBiddersOf bets).length = 1 then 1
  else getFractionalWinAmount (highestBiddersOf bets).length

/-- The amount each tied winner pays in Vickrey mode, and the single
winner's payment (`secondHighestBid !== undefined ? secondHighestBid :
highestBid` / the third-else-second-else-0 chain). -/
def vickreyPayOf (bets : List (Nat × Int)) : Int :=
  if (highestBiddersOf bets).length = 1 then
    (secondHighestOf bets).getD (highestBidOf bets)
  else
    (thirdHighestOf bets).getD ((secondHighestOf bets).getD 0)

/-- `shouldEndGame` from app.js. -/
def shouldEndGame (g : Game) : Bool :=
  if g.gameMode = .allPay then
    g.players.any (fun p => g.roundsToWin ≤ p.roundsWon)
      || decide (g.totalRounds ≤ g.currentRound)
  else
    decide (g.totalRounds ≤ g.currentRound)

/-- The money tie-break step of `determineOverallWinner`
(`(prev, current) => (prev.money > current.money) ? prev : current`). -/
def richerOf (prev current : Player) : Player :=
  if prev.money > current.money then prev else current

/-- `maxWins` of `determineOverallWinner`: the largest `roundsWon`
across the players (0 as a dummy for an empty player list, on which the
source's `Math.max` of no arguments never feeds the filter a member). -/
def maxWinsOf (g : Game) : Rat :=
  ((g.players.map Player.roundsWon).max?).getD 0

/-- `playersWithMostWins` of `determineOverallWinner`: the players tied
at `maxWins`, in join order. -/
def tiedAtMaxWins (g : Game) : List Player :=
  g.players.filter (fun p => p.roundsWon = maxWinsOf g)

/-- `determineOverallWinner` from app.js, returning the game with
`overallWinner` set.  The source's `reduce` over the players tied at
`maxWins` is the fold of `richerOf` over that list; on an empty player
list the source throws, modelled by leaving `overallWinner` as `none`. -/
def determineOverallWinner (g : Game) : Game :=
  match (if g.gameMode = .allPay then
          g.players.find? (fun p => g.roundsToWin ≤ p.roundsWon)
         else none) with
  | some w => { g with overallWinner := some w }
  | none =>
    match tiedAtMaxWins g with
    | [] => { g with overallWinner := none }
    | w :: rest => { g with overallWinner := some (rest.foldl richerOf w) }

/-- Per-player settlement of All-Pay mode: every player pays their own
recorded bid (`game.bets[player.id] || 0`) and highest bidders gain the
win credit. -/
def settleAllPay (bets : List (Nat × Int)) (p : Player) : Player :=
  let bet := (betLookup p.id bets).getD 0
  let p1 := { p with money := p.money - bet }
  if (highestBiddersOf bets).contains p.id then
    { p1 with roundsWon := p1.roundsWon + creditOf bets }
  else p1

/-- Per-player settlement of Standard mode: only highest bidders pay,
each their own (full, hence highest) bid, and gain the win credit. -/
def settleStandard (bets : List (Nat × Int)) (p : Player) : Player :=
  if (highestBiddersOf bets).contains p.id then
    { p with money := p.money - highestBidOf bets,
             roundsWon := p.roundsWon + creditOf bets }
  else p

/-- Per-player settlement of Vickrey mode: only highest bidders pay,
each the Vickrey payment, and gain the win credit. -/
def settleVickrey (bets : List (Nat × Int)) (p : Player) : Player :=
  if (highestBiddersOf bets).contains p.id then
    { p with money := p.money - vickreyPayOf bets,
             roundsWon := p.roundsWon + creditOf bets }
  else p

/-- The actual-payment record stored by `completeRound`
(`game.actualPayments`). -/
def paymentsOf (mode : GameMode) (bets : List (Nat × Int))
    (players : List Player) : List (Nat × Int) :=
  match mode with
  | .allPay => players.map (fun p => (p.id, (betLookup p.id bets).getD 0))
  | .standard => players.map (fun p =>
      (p.id, if (highestBiddersOf bets).contains p.id then highestBidOf bets else 0))
  | .vickrey => players.map (fun p =>
      (p.id, if (highestBiddersOf bets).contains p.id then vickreyPayOf bets else 0))

/-- The per-player update `completeRound` applies in the given mode. -/
def settlePlayer (mode : GameMode) (bets : List (Nat × Int)) : Player → Player :=
  match mode with
  | .allPay => settleAllPay bets
  | .standard => settleStandard bets
  | .vickrey => settleVickrey bets

/-- The state `completeRound` reaches just before its final
`shouldEndGame` check on a non-empty ledger: ledger snapshotted, all
balances and win credits settled per mode, winners and second/third
highest bids recorded, status `roundComplete`. -/
def settledGame (g : Game) : Game :=
  { g with
    lastRoundBets := g.bets,
    showRoundResults := true,
    secondHighestBid := secondHighestOf g.bets,
    thirdHighestBid := thirdHighestOf g.bets,
    players := g.players.map (settlePlayer g.gameMode g.bets),
    actualPayments := paymentsOf g.gameMode g.bets g.players,
    roundWinners := some (highestBiddersOf g.bets),
    status := Status.roundComplete }

/-- `completeRound` from app.js: snapshot the ledger, settle payments
and win credits per mode, record winners and second/third-highest bids,
then re-evaluate the termination predicate and, when it holds, move to
`gameComplete` and resolve the overall winner.  The zero-bid early
return keeps every other field untouched. -/
def completeRound (g : Game) : Game :=
  if g.bets.isEmpty then
    { g with lastRoundBets := g.bets, showRoundResults := true,
             status := .roundComplete, roundWinners := some [] }
  else if shouldEndGame (settledGame g) then
    determineOverallWinner { settledGame g with status := .gameComplete }
  else settledGame g

/-- The game the create route builds for its host (spec: `createGame`);
ids are supplied by the caller in place of the random generator. -/
def initGame (mode : GameMode) (hostId : Nat) (hostName : String) : Game :=
  { gameMode := mode
    players := [{ id := hostId, name := hostName, money := 100,
                  roundsWon := 0, host := true }]
    currentRound := 0
    totalRounds := getTotalRoundsForPlayerCount 1
    roundsToWin := 3
    status := .waiting
    bets := []
    roundWinners := none
    overallWinner := none
    lastRoundBets := []
    showRoundResults := false
    secondHighestBid := none
    thirdHighestBid := none
    actualPayments := [] }

/-- The join route: rejected when the game has started or the name is
taken; otherwise appends the player and recomputes `totalRounds` from
the new player count. -/
def joinGame (g : Game) (pid : Nat) (username : String) : Except Err Game :=
  if g.status ≠ .waiting then .error .invalidState
  else if g.players.any (fun p => p.name = username) then .error .invalidInput
  else
    let ps := g.players ++ [{ id := pid, name := username, money := 100,
                              roundsWon := 0, host := false }]
    .ok { g with players := ps,
                 totalRounds := getTotalRoundsForPlayerCount ps.length }

/-- The start route: host only, at least two players, only from
`waiting`; moves to `betting` at round 1 with a cleared ledger. -/
def startGame (g : Game) (pid : Nat) : Except Err Game :=
  match g.players.find? (fun p => p.id = pid) with
  | none => .error .forbidden
  | some player =>
    if player.host = false then .error .forbidden
    else if g.players.length < 2 then .error .invalidInput
    else if g.status ≠ .waiting then .error .invalidState
    else .ok { g with status := .betting, currentRound := 1, bets := [] }

/-- The bet route (`placeBid`): validates phase, membership, no
duplicate bid and `0 ≤ amount ≤ money`, records the bid, and settles the
round the instant every player has bid. -/
def placeBid (g : Game) (pid : Nat) (amount : Int) : Except Err Game :=
  match g.players.find? (fun p => p.id = pid) with
  | none => .error .notFound
  | some player =>
    if g.status ≠ .betting then .error .invalidState
    else if (betLookup pid g.bets).isSome then .error .invalidInput
    else if amount < 0 ∨ player.money < amount then .error .invalidInput
    else
      let g1 := { g with bets := g.bets ++ [(pid, amount)] }
      if g1.players.all (fun p => (betLookup p.id g1.bets).isSome) then
        .ok (completeRound g1)
      else .ok g1

/-- The nextround route: host only, only from `roundComplete`;
re-evaluates the termination predicate (ending the game instead when it
holds) and otherwise advances to the next betting round. -/
def nextRound (g : Game) (pid : Nat) : Except Err Game :=
  match g.players.find? (fun p => p.id = pid) with
  | none => .error .forbidden
  | some player =>
    if player.host = false then .error .forbidden
    else if g.status ≠ .roundComplete then .error .invalidState
    else if shouldEndGame g then
      .ok (determineOverallWinner { g with status := .gameComplete })
    else
      .ok { g with currentRound := g.currentRound + 1, status := .betting,
                   bets := [], roundWinners := none, showRoundResults := false }

/-- The reset route: host only; restores every player's money and
`roundsWon`, rewinds the round counter and status, and clears the
cached round data (the source leaves `thirdHighestBid` in place). -/
def resetGame (g : Game) (pid : Nat) : Except Err Game :=
  match g.players.find? (fun p => p.id = pid) with
  | none => .error .forbidden
  | some player =>
    if player.host = false then .error .forbidden
    else
      .ok { g with
        players := g.players.map (fun p => { p with money := 100, roundsWon := 0 }),
        currentRound := 0,
        status := .waiting,
        bets := [],
        roundWinners := none,
        overallWinner := none,
        lastRoundBets := [],
        showRoundResults := false,
        secondHighestBid := none,
        actualPayments := [] }

/-- One externally triggered mutation of a game (spec section 6); the
join step additionally requires the generated id to be fresh. -/
inductive Step : Game → Game → Prop where
  | join (g : Game) (pid : Nat) (name : String) (g' : Game)
      (hfresh : pid ∉ idsOf g) (h : joinGame g pid name = .ok g') : Step g g'
  | start (g : Game) (pid : Nat) (g' : Game)
      (h : startGame g pid = .ok g') : Step g g'
  | bid (g : Game) (pid : Nat) (amount : Int) (g' : Game)
      (h : placeBid g pid amount = .ok g') : Step g g'
  | advance (g : Game) (pid : Nat) (g' : Game)
      (h : nextRound g pid = .ok g') : Step g g'
  | reset (g : Game) (pid : Nat) (g' : Game)
      (h : resetGame g pid = .ok g') : Step g g'

/-- The games reachable from creation through the engine's operations. -/
inductive Reachable : Game → Prop where
  | init (mode : GameMode) (hostId : Nat) (hostName : String) :
      Reachable (initGame mode hostId hostName)
  | step {g g' : Game} (hr : Reachable g) (hs : Step g g') : Reachable g'

/-! Concrete games used to instantiate the claim theorems. -/

/-- A player literal for the concrete instantiations. -/
def mkPlayer (i : Nat) (nm : String) (m : Int) (w : Rat) (h : Bool) : Player :=
  { id := i, name := nm, money := m, roundsWon := w, host := h }

/-- A game literal for the concrete instantiations; untouched display
fields are at their create-route defaults. -/
def mkGame (mode : GameMode) (ps : List Player) (cur tot : Nat)
    (st : Status) (bets : List (Nat × Int)) : Game :=
  { gameMode := mode, players := ps, currentRound := cur, totalRounds := tot,
    roundsToWin := 3, status := st, bets := bets, roundWinners := none,
    overallWinner := none, lastRoundBets := [], showRoundResults := false,
    secondHighestBid := none, thirdHighestBid := none, actualPayments := [] }

/-- A finished standard-mode game with two players tied on both
`roundsWon` and `money`: the tie-break must choose between them. -/
def c1Game : Game :=
  mkGame .standard [mkPlayer 1 "a" 50 1 true, mkPlayer 2 "b" 50 1 false]
    5 5 .gameComplete []

/-- A betting all-pay game in which every one of the three players has
bid the same amount: a three-way tie for the round win. -/
def c3Game : Game :=
  mkGame .allPay
    [mkPlayer 1 "a" 100 0 true, mkPlayer 2 "b" 100 0 false, mkPlayer 3 "c" 100 0 false]
    1 7 .betting [(1, 10), (2, 10), (3, 10)]

/-- A round-complete all-pay game one of whose players holds 3 wins
after 2 of its 5 rounds. -/
def c5Game : Game :=
  mkGame .allPay [mkPlayer 1 "a" 70 3 true, mkPlayer 2 "b" 80 0 false]
    2 5 .roundComplete []

/-- The demo game after a second player joins the freshly created
game: two players, recomputed schedule, still waiting. -/
def c6Game1 : Game :=
  mkGame .allPay [mkPlayer 0 "alice" 100 0 true, mkPlayer 1 "bob" 100 0 false]
    0 5 .waiting []

/-- The demo game once the host starts it: round 1, betting phase. -/
def c6Game2 : Game :=
  mkGame .allPay [mkPlayer 0 "alice" 100 0 true, mkPlayer 1 "bob" 100 0 false]
    1 5 .betting []

/-- A betting Vickrey game with the spec's example bids 50, 30, 10. -/
def c2Game : Game :=
  mkGame .vickrey
    [mkPlayer 1 "a" 100 0 true, mkPlayer 2 "b" 100 0 false, mkPlayer 3 "c" 100 0 false]
    1 9 .betting [(1, 50), (2, 30), (3, 10)]

/-- A betting standard game with one recorded bid, awaiting the second
player's bid. -/
def c7Game : Game :=
  mkGame .standard [mkPlayer 1 "a" 100 0 true, mkPlayer 2 "b" 80 0 false]
    1 5 .betting [(1, 10)]

/-- A betting all-pay game with three distinct bids recorded. -/
def c8Game : Game :=
  mkGame .allPay
    [mkPlayer 1 "a" 100 0 true, mkPlayer 2 "b" 90 0 false, mkPlayer 3 "c" 80 0 false]
    1 7 .betting [(1, 40), (2, 25), (3, 10)]

/-- A finished Vickrey game ready for its host to reset. -/
def c9Game : Game :=
  mkGame .vickrey [mkPlayer 1 "host" 55 1 true, mkPlayer 2 "guest" 70 2 false]
    5 5 .gameComplete []

/-- A finished three-player standard game whose schedule is 7 rounds. -/
def c10Game : Game :=
  mkGame .standard
    [mkPlayer 1 "a" 37 2 true, mkPlayer 2 "b" 64 1 false, mkPlayer 3 "c" 12 0 false]
    7 7 .gameComplete []

/-- The state the reset route produces from `c10Game`. -/
def c10Reset : Game :=
  mkGame .standard
    [mkPlayer 1 "a" 100 0 true, mkPlayer 2 "b" 100 0 false, mkPlayer 3 "c" 100 0 false]
    0 7 .waiting []

/-! Helper lemmas about the ledger and the bid ranking. -/

theorem betLookup_eq_none_iff (pid : Nat) (bets : List (Nat × Int)) :
    betLookup pid bets = none ↔ pid ∉ bets.map Prod.fst := by
  induction bets with
  | nil => simp [betLookup]
  | cons b rest ih =>
    by_cases hk : b.1 = pid
    · simp [betLookup, hk]
    · simp [betLookup, hk, ih, Ne.symm hk]

theorem betLookup_mem {pid : Nat} {bets : List (Nat × Int)} {v : Int}
    (h : betLookup pid bets = some v) : (pid, v) ∈ bets := by
  induction bets with
  | nil => simp [betLookup] at h
  | cons b rest ih =>
    by_cases hk : b.1 = pid
    · simp [betLookup, hk] at h
      have hb : b = (pid, v) := by
        calc b = (b.1, b.2) := rfl
          _ = (pid, v) := by rw [hk, h]
      rw [← hb]
      exact List.mem_cons_self b rest
    · simp [betLookup, hk] at h
      exact List.mem_cons_of_mem _ (ih h)

theorem betLookup_append_right {pid : Nat} {bets : List (Nat × Int)} {a : Int}
    (h : betLookup pid bets = none) :
    betLookup pid (bets ++ [(pid, a)]) = some a := by
  induction bets with
  | nil => simp [betLookup]
  | cons b rest ih =>
    by_cases hk : b.1 = pid
    · simp [betLookup, hk] at h
    · simp [betLookup, hk] at h ⊢
      exact ih h

theorem max?_mem_le {α : Type} [LinearOrder α] {l : List α} {m : α}
    (h : l.max? = some m) : m ∈ l ∧ ∀ x ∈ l, x ≤ m := by
  refine ⟨List.max?_mem (fun a b => max_choice a b) h, ?_⟩
  intro y hy
  exact (List.max?_le_iff (fun a b c => max_le_iff) h).mp le_rfl y hy

theorem max?_spec {α : Type} [LinearOrder α] {l : List α} (h : l ≠ []) :
    ∃ m, l.max? = some m ∧ m ∈ l ∧ ∀ x ∈ l, x ≤ m := by
  match l, h with
  | x :: xs, _ =>
    have h0 : (x :: xs).max? = some (xs.foldl max x) := rfl
    obtain ⟨hmem, hle⟩ := max?_mem_le h0
    exact ⟨xs.foldl max x, h0, hmem, hle⟩

theorem highestBid_mem {bets : List (Nat × Int)} (h : bets ≠ []) :
    ∃ b ∈ bets, b.2 = highestBidOf bets := by
  have hne : amountsOf bets ≠ [] := by
    simpa [amountsOf] using h
  obtain ⟨m, hm, hmem, _⟩ := max?_spec hne
  rw [highestBidOf, hm]
  obtain ⟨b, hb, hb2⟩ := List.mem_map.mp hmem
  exact ⟨b, hb, by simp [hb2]⟩

theorem le_highestBid {bets : List (Nat × Int)} (h : bets ≠ []) :
    ∀ b ∈ bets, b.2 ≤ highestBidOf bets := by
  have hne : amountsOf bets ≠ [] := by
    simpa [amountsOf] using h
  obtain ⟨m, hm, _, hle⟩ := max?_spec hne
  intro b hb
  rw [highestBidOf, hm]
  exact hle b.2 (List.mem_map.mpr ⟨b, hb, rfl⟩)

theorem highestBid_nonneg {bets : List (Nat × Int)} (h : bets ≠ [])
    (hnn : ∀ b ∈ bets, 0 ≤ b.2) : 0 ≤ highestBidOf bets := by
  obtain ⟨b, hb, hb2⟩ := highestBid_mem h
  exact hb2 ▸ hnn b hb

theorem mem_highestBidders_iff (pid : Nat) (bets : List (Nat × Int)) :
    pid ∈ highestBiddersOf bets ↔ (pid, highestBidOf bets) ∈ bets := by
  constructor
  · intro hmem
    obtain ⟨b, hb, hb1⟩ := List.mem_map.mp hmem
    obtain ⟨hbm, hb2⟩ := List.mem_filter.mp hb
    have : b = (pid, highestBidOf bets) := by
      have h2 : b.2 = highestBidOf bets := by exact_mod_cast of_decide_eq_true hb2
      calc b = (b.1, b.2) := rfl
        _ = (pid, highestBidOf bets) := by rw [hb1, h2]
    exact this ▸ hbm
  · intro hmem
    exact List.mem_map.mpr ⟨(pid, highestBidOf bets),
      List.mem_filter.mpr ⟨hmem, by simp⟩, rfl⟩

theorem highestBidders_ne_nil {bets : List (Nat × Int)} (h : bets ≠ []) :
    highestBiddersOf bets ≠ [] := by
  obtain ⟨b, hb, hb2⟩ := highestBid_mem h
  intro hcon
  have : b.1 ∈ highestBiddersOf bets := by
    rw [mem_highestBidders_iff]
    have : b = (b.1, highestBidOf bets) := by
      calc b = (b.1, b.2) := rfl
        _ = (b.1, highestBidOf bets) := by rw [hb2]
    exact this ▸ hb
  simp [hcon] at this

theorem secondHighest_lt {bets : List (Nat × Int)} {s : Int}
    (h : secondHighestOf bets = some s) : s < highestBidOf bets := by
  rw [secondHighestOf] at h
  split at h
  · obtain ⟨hmem, _⟩ := max?_mem_le h
    exact (List.mem_filter.mp hmem).2 |> of_decide_eq_true
  · simp at h

theorem thirdHighest_lt {bets : List (Nat × Int)} {t : Int}
    (h : thirdHighestOf bets = some t) (hne : bets ≠ []) :
    t < highestBidOf bets := by
  rw [thirdHighestOf] at h
  split at h
  · obtain ⟨hmem, _⟩ := max?_mem_le h
    obtain ⟨b, hb, hb2⟩ := List.mem_map.mp hmem
    obtain ⟨hbm, hbfilter⟩ := List.mem_filter.mp hb
    have hle : b.2 ≤ highestBidOf bets := le_highestBid hne b hbm
    rcases lt_or_eq_of_le hle with hlt | heq
    · exact hb2 ▸ hlt
    · exfalso
      have : b.1 ∈ highestBiddersOf bets := by
        rw [mem_highestBidders_iff]
        have : b = (b.1, highestBidOf bets) := by
          calc b = (b.1, b.2) := rfl
            _ = (b.1, highestBidOf bets) := by rw [heq]
        exact this ▸ hbm
      simp at hbfilter
      exact hbfilter this
  · simp at h

theorem vickreyPay_le_highest {bets : List (Nat × Int)} (hne : bets ≠ [])
    (hnn : ∀ b ∈ bets, 0 ≤ b.2) : vickreyPayOf bets ≤ highestBidOf bets := by
  rw [vickreyPayOf]
  split
  · cases hs : secondHighestOf bets with
    | none => simp
    | some s => simp [le_of_lt (secondHighest_lt hs)]
  · cases ht : thirdHighestOf bets with
    | none =>
      cases hs : secondHighestOf bets with
      | none => simpa using highestBid_nonneg hne hnn
      | some s => simp [le_of_lt (secondHighest_lt hs)]
    | some t => simp [le_of_lt (thirdHighest_lt ht hne)]

theorem find?_split {α : Type} {p : α → Bool} {l : List α} {w : α}
    (h : l.find? p = some w) :
    p w = true ∧ ∃ l1 l2, l = l1 ++ w :: l2 ∧ ∀ y ∈ l1, p y = false := by
  induction l with
  | nil => simp at h
  | cons x xs ih =>
    by_cases hx : p x
    · rw [List.find?_cons_of_pos _ hx] at h
      obtain rfl : x = w := by injection h
      exact ⟨hx, [], xs, rfl, by simp⟩
    · rw [List.find?_cons_of_neg _ hx] at h
      obtain ⟨hw, l1, l2, hsplit, hall⟩ := ih h
      refine ⟨hw, x :: l1, l2, by rw [hsplit]; rfl, ?_⟩
      intro y hy
      rcases List.mem_cons.mp hy with rfl | hy'
      · exact Bool.eq_false_iff.mpr hx
      · exact hall y hy'

/-- The fold of the money tie-break over a tied-player list returns the
last element attaining the maximal money: everything before it in the
list has no more money, everything after it has strictly less. -/
theorem foldl_richerOf_spec (acc : Player) (l : List Player) :
    ∃ l1 l2, acc :: l = l1 ++ (l.foldl richerOf acc) :: l2 ∧
      (∀ y ∈ l1, y.money ≤ (l.foldl richerOf acc).money) ∧
      (∀ y ∈ l2, y.money < (l.foldl richerOf acc).money) := by
  induction l generalizing acc with
  | nil => exact ⟨[], [], rfl, by simp, by simp⟩
  | cons x xs ih =>
    obtain ⟨l1, l2, hsplit, h1, h2⟩ := ih (richerOf acc x)
    have hfold : (x :: xs).foldl richerOf acc = xs.foldl richerOf (richerOf acc x) := rfl
    rw [hfold]
    generalize hM : xs.foldl richerOf (richerOf acc x) = m at hsplit h1 h2 ⊢
    by_cases hc : acc.money > x.money
    · have hax : richerOf acc x = acc := by simp [richerOf, hc]
      rw [hax] at hsplit
      cases l1 with
      | nil =>
        simp only [List.nil_append] at hsplit
        obtain ⟨hm, hl2⟩ := List.cons.inj hsplit
        refine ⟨[], x :: xs, by rw [List.nil_append, ← hm], by simp, ?_⟩
        intro y hy
        rcases List.mem_cons.mp hy with rfl | hy'
        · rw [← hm]; exact hc
        · exact h2 y (hl2 ▸ hy')
      | cons a l1' =>
        rw [List.cons_append] at hsplit
        obtain ⟨ha, hxs⟩ := List.cons.inj hsplit
        have hacc_le : acc.money ≤ m.money := ha ▸ h1 a (by simp)
        refine ⟨acc :: x :: l1', l2, by simp [hxs], ?_, h2⟩
        intro y hy
        rcases List.mem_cons.mp hy with rfl | hy'
        · exact hacc_le
        · rcases List.mem_cons.mp hy' with rfl | hy''
          · exact le_of_lt (lt_of_lt_of_le hc hacc_le)
          · exact h1 y (by simp [hy''])
    · have hax : richerOf acc x = x := by simp [richerOf, hc]
      rw [hax] at hsplit
      have hacc_le : acc.money ≤ m.money := by
        have hax' : acc.money ≤ x.money := le_of_not_lt hc
        cases l1 with
        | nil =>
          simp only [List.nil_append] at hsplit
          obtain ⟨hm, _⟩ := List.cons.inj hsplit
          exact hm ▸ hax'
        | cons b l1' =>
          rw [List.cons_append] at hsplit
          obtain ⟨hb, _⟩ := List.cons.inj hsplit
          exact le_trans hax' (hb ▸ h1 b (by simp))
      refine ⟨acc :: l1, l2, ?_, ?_, h2⟩
      · rw [List.cons_append, ← hsplit]
      · intro y hy
        rcases List.mem_cons.mp hy with rfl | hy'
        · exact hacc_le
        · exact h1 y hy'

/-! Structural lemmas about the settlement and resolver functions. -/

theorem determineOverallWinner_players (g : Game) :
    (determineOverallWinner g).players = g.players := by
  rw [determineOverallWinner]
  split
  · rfl
  · split <;> rfl

theorem determineOverallWinner_frame (g : Game) :
    (determineOverallWinner g).players = g.players ∧
    (determineOverallWinner g).bets = g.bets ∧
    (determineOverallWinner g).status = g.status ∧
    (determineOverallWinner g).gameMode = g.gameMode ∧
    (determineOverallWinner g).totalRounds = g.totalRounds ∧
    (determineOverallWinner g).currentRound = g.currentRound ∧
    (determineOverallWinner g).roundsToWin = g.roundsToWin := by
  rw [determineOverallWinner]
  split
  · exact ⟨rfl, rfl, rfl, rfl, rfl, rfl, rfl⟩
  · split <;> exact ⟨rfl, rfl, rfl, rfl, rfl, rfl, rfl⟩

theorem settlePlayer_id (mode : GameMode) (bets : List (Nat × Int)) (p : Player) :
    (settlePlayer mode bets p).id = p.id := by
  cases mode <;>
    simp only [settlePlayer, settleAllPay, settleStandard, settleVickrey] <;>
    split <;> rfl

theorem settlePlayer_roundsWon (mode : GameMode) (bets : List (Nat × Int)) (p : Player) :
    (settlePlayer mode bets p).roundsWon
      = p.roundsWon + (if (highestBiddersOf bets).contains p.id then creditOf bets else 0) := by
  cases mode <;>
    simp only [settlePlayer, settleAllPay, settleStandard, settleVickrey] <;>
    split <;> simp_all

theorem completeRound_players_of_ne (g : Game) (hne : g.bets ≠ []) :
    (completeRound g).players = g.players.map (settlePlayer g.gameMode g.bets) := by
  rw [completeRound]
  simp only [List.isEmpty_iff, hne, if_neg, ite_false]
  split
  · rw [determineOverallWinner_players]
    simp [settledGame]
  · rfl

theorem completeRound_bets (g : Game) : (completeRound g).bets = g.bets := by
  rw [completeRound]
  split
  · rfl
  · split
    · rw [(determineOverallWinner_frame _).2.1]
      simp [settledGame]
    · rfl

theorem completeRound_status_ne_betting (g : Game) :
    (completeRound g).status ≠ .betting := by
  rw [completeRound]
  split
  · simp
  · split
    · rw [(determineOverallWinner_frame _).2.2.1]; simp
    · simp [settledGame]

theorem completeRound_totalRounds (g : Game) :
    (completeRound g).totalRounds = g.totalRounds := by
  rw [completeRound]
  split
  · rfl
  · split
    · rw [(determineOverallWinner_frame _).2.2.2.2.1]
      simp [settledGame]
    · rfl

theorem completeRound_players_length (g : Game) :
    (completeRound g).players.length = g.players.length := by
  by_cases hne : g.bets = []
  · rw [completeRound]
    simp [hne]
  · rw [completeRound_players_of_ne g hne, List.length_map]

theorem find?_id_of_nodup {players : List Player} {p : Player} {pid : Nat}
    (hnodup : (players.map Player.id).Nodup) (hp : p ∈ players) (hid : p.id = pid) :
    players.find? (fun q => q.id = pid) = some p := by
  induction players with
  | nil => simp at hp
  | cons x xs ih =>
    rw [List.map_cons, List.nodup_cons] at hnodup
    by_cases hx : x.id = pid
    · rw [List.find?_cons_of_pos _ (by simpa using hx)]
      rcases List.mem_cons.mp hp with rfl | hp'
      · rfl
      · exfalso
        exact hnodup.1 (by rw [hx, ← hid]; exact List.mem_map.mpr ⟨p, hp', rfl⟩)
    · rw [List.find?_cons_of_neg _ (by simpa using hx)]
      rcases List.mem_cons.mp hp with rfl | hp'
      · exact absurd hid hx
      · exact ih hnodup.2 hp'

/-! Claim theorems. -/

/-- C5: the termination predicate holds in All-Pay mode exactly when
some player's `roundsWon` has reached 3 or the current round has
reached the total-round schedule, and in Standard and Vickrey modes if
and only if the schedule is exhausted. -/
theorem shouldEndGame_spec (g : Game) (h3 : g.roundsToWin = 3) :
    shouldEndGame g = true ↔
      ((g.gameMode = .allPay ∧
          ((∃ p ∈ g.players, (3 : Rat) ≤ p.roundsWon) ∨ g.totalRounds ≤ g.currentRound)) ∨
       (g.gameMode ≠ .allPay ∧ g.totalRounds ≤ g.currentRound)) := by
  rw [shouldEndGame]
  by_cases hm : g.gameMode = .allPay <;>
    simp [hm, h3, List.any_eq_true]

/-- C5 witness: an all-pay game one of whose players holds 3 wins ends
although only 2 of its 5 rounds are played. -/
theorem shouldEndGame_spec_witness :
    shouldEndGame c5Game = true ↔
      ((c5Game.gameMode = .allPay ∧
          ((∃ p ∈ c5Game.players, (3 : Rat) ≤ p.roundsWon) ∨
            c5Game.totalRounds ≤ c5Game.currentRound)) ∨
       (c5Game.gameMode ≠ .allPay ∧ c5Game.totalRounds ≤ c5Game.currentRound)) :=
  shouldEndGame_spec c5Game (by decide)

/-- C9: a reset succeeds exactly for the host, restores every player's
money to 100 and `roundsWon` to 0, rewinds `currentRound` to 0 and the
status to `waiting`, and keeps the players' identities and names in
join order. -/
theorem resetGame_spec (g : Game) (pid : Nat)
    (hnodup : (g.players.map Player.id).Nodup) :
    ((∃ g', resetGame g pid = .ok g') ↔ ∃ p ∈ g.players, p.id = pid ∧ p.host = true) ∧
    ∀ g', resetGame g pid = .ok g' →
      g'.players.map Player.id = g.players.map Player.id ∧
      g'.players.map Player.name = g.players.map Player.name ∧
      (∀ p ∈ g'.players, p.money = 100 ∧ p.roundsWon = 0) ∧
      g'.currentRound = 0 ∧ g'.status = .waiting := by
  constructor
  · constructor
    · rintro ⟨g', hg'⟩
      rw [resetGame] at hg'
      cases hf : g.players.find? (fun q => q.id = pid) with
      | none =>
        simp only [hf] at hg'
        exact (Except.noConfusion hg')
      | some p =>
        simp only [hf] at hg'
        cases hpb : p.host with
        | false => simp [hpb] at hg'
        | true =>
          exact ⟨p, List.mem_of_find?_eq_some hf,
            by simpa using List.find?_some hf, hpb⟩
    · rintro ⟨p, hp, hid, hhost⟩
      have hf := find?_id_of_nodup hnodup hp hid
      refine ⟨{ g with
        players := g.players.map (fun q => { q with money := 100, roundsWon := 0 }),
        currentRound := 0, status := .waiting, bets := [], roundWinners := none,
        overallWinner := none, lastRoundBets := [], showRoundResults := false,
        secondHighestBid := none, actualPayments := [] }, ?_⟩
      rw [resetGame]
      simp only [hf]
      rw [if_neg (by simp [hhost])]
  · intro g' hg'
    rw [resetGame] at hg'
    cases hf : g.players.find? (fun q => q.id = pid) with
    | none =>
      simp only [hf] at hg'
      exact (Except.noConfusion hg')
    | some p =>
      simp only [hf] at hg'
      cases hpb : p.host with
      | false => simp [hpb] at hg'
      | true =>
        rw [hpb] at hg'
        simp only [Bool.true_eq_false, if_false] at hg'
        obtain rfl := (Except.ok.inj hg').symm
        refine ⟨?_, ?_, ?_, rfl, rfl⟩
        · rw [List.map_map]; rfl
        · rw [List.map_map]; rfl
        · intro p hp
          obtain ⟨q, _, rfl⟩ := List.mem_map.mp hp
          exact ⟨rfl, rfl⟩

/-- C10: a successful reset leaves the game's mode, round schedule,
win threshold and the players' ids, names and host flags unchanged; in
particular `totalRounds` keeps its pre-reset value. -/
theorem resetGame_frame (g : Game) (pid : Nat) :
    ∀ g', resetGame g pid = .ok g' →
      g'.gameMode = g.gameMode ∧ g'.totalRounds = g.totalRounds ∧
      g'.roundsToWin = g.roundsToWin ∧
      g'.players.map Player.host = g.players.map Player.host ∧
      g'.players.map Player.id = g.players.map Player.id ∧
      g'.players.map Player.name = g.players.map Player.name := by
  intro g' hg'
  rw [resetGame] at hg'
  cases hf : g.players.find? (fun q => q.id = pid) with
  | none =>
    simp only [hf] at hg'
    exact (Except.noConfusion hg')
  | some p =>
    simp only [hf] at hg'
    cases hpb : p.host with
    | false => simp [hpb] at hg'
    | true =>
      rw [hpb] at hg'
      simp only [Bool.true_eq_false, if_false] at hg'
      obtain rfl := (Except.ok.inj hg').symm
      refine ⟨rfl, rfl, rfl, ?_, ?_, ?_⟩ <;> (rw [List.map_map]; rfl)

/-- C7: a bid is accepted exactly when the game is betting, the caller
is a recognized player who has not yet bid this round, and the amount
is between 0 and the caller's money; an accepted bid is recorded in the
ledger.  A rejected bid returns an error and, in this embedding of the
mutation-free validation prefix of the route, leaves the game as it
was. -/
theorem placeBid_spec (g : Game) (pid : Nat) (amount : Int)
    (hnodup : (g.players.map Player.id).Nodup) :
    ((∃ g', placeBid g pid amount = .ok g') ↔
      (g.status = .betting ∧ (∃ p ∈ g.players, p.id = pid) ∧
       betLookup pid g.bets = none ∧ 0 ≤ amount ∧
       (∀ p ∈ g.players, p.id = pid → amount ≤ p.money))) ∧
    (∀ g', placeBid g pid amount = .ok g' → betLookup pid g'.bets = some amount) := by
  constructor
  · constructor
    · rintro ⟨g', hg'⟩
      rw [placeBid] at hg'
      cases hf : g.players.find? (fun q => q.id = pid) with
      | none =>
        simp only [hf] at hg'
        exact (Except.noConfusion hg')
      | some player =>
        simp only [hf] at hg'
        by_cases hst : g.status = Status.betting
        · by_cases hbl : (betLookup pid g.bets).isSome
          · rw [if_neg (by simp [hst]), if_pos hbl] at hg'
            exact (Except.noConfusion hg')
          · by_cases hamt : amount < 0 ∨ player.money < amount
            · rw [if_neg (by simp [hst]), if_neg hbl, if_pos hamt] at hg'
              exact (Except.noConfusion hg')
            · push_neg at hamt
              refine ⟨hst,
                ⟨player, List.mem_of_find?_eq_some hf, by simpa using List.find?_some hf⟩,
                Option.not_isSome_iff_eq_none.mp hbl, hamt.1, ?_⟩
              intro p hp hpid
              have hsame : p = player := by
                have h1 := find?_id_of_nodup hnodup hp hpid
                rw [hf] at h1
                exact (Option.some.inj h1).symm
              rw [hsame]
              exact hamt.2
        · rw [if_pos (by simp [hst])] at hg'
          exact (Except.noConfusion hg')
    · rintro ⟨hst, ⟨p, hp, hid⟩, hbl, h0, hbound⟩
      have hf := find?_id_of_nodup hnodup hp hid
      rw [placeBid]
      simp only [hf]
      rw [if_neg (by simp [hst]), if_neg (by simp [hbl]),
        if_neg (by push_neg; exact ⟨h0, hbound p hp hid⟩)]
      split
      · exact ⟨_, rfl⟩
      · exact ⟨_, rfl⟩
  · intro g' hg'
    rw [placeBid] at hg'
    cases hf : g.players.find? (fun q => q.id = pid) with
    | none =>
      simp only [hf] at hg'
      exact (Except.noConfusion hg')
    | some player =>
      simp only [hf] at hg'
      by_cases hst : g.status = Status.betting
      · by_cases hbl : (betLookup pid g.bets).isSome
        · rw [if_neg (by simp [hst]), if_pos hbl] at hg'
          exact (Except.noConfusion hg')
        · by_cases hamt : amount < 0 ∨ player.money < amount
          · rw [if_neg (by simp [hst]), if_neg hbl, if_pos hamt] at hg'
            exact (Except.noConfusion hg')
          · rw [if_neg (by simp [hst]), if_neg hbl, if_neg hamt] at hg'
            have hrec : betLookup pid (g.bets ++ [(pid, amount)]) = some amount :=
              betLookup_append_right (Option.not_isSome_iff_eq_none.mp hbl)
            split at hg'
            · obtain rfl := (Except.ok.inj hg').symm
              rw [completeRound_bets]
              exact hrec
            · obtain rfl := (Except.ok.inj hg').symm
              exact hrec
      · rw [if_pos (by simp [hst])] at hg'
        exact (Except.noConfusion hg')

/-- C8: settling an all-pay round charges every player exactly their
own recorded bid, win or lose, and adds win credit only to the highest
bidders.  The relation pairs each pre-settlement player with their
post-settlement state in join order. -/
theorem allpay_settlement (g : Game) (hmode : g.gameMode = .allPay)
    (hne : g.bets ≠ []) :
    List.Forall₂ (fun p q =>
        q.money = p.money - (betLookup p.id g.bets).getD 0 ∧
        (p.id ∉ highestBiddersOf g.bets → q.roundsWon = p.roundsWon) ∧
        (p.id ∈ highestBiddersOf g.bets →
          q.roundsWon = p.roundsWon + creditOf g.bets))
      g.players (completeRound g).players := by
  rw [completeRound_players_of_ne g hne, hmode]
  rw [List.forall₂_map_right_iff, List.forall₂_same]
  intro p _
  refine ⟨?_, ?_, ?_⟩
  · simp only [settlePlayer, settleAllPay]
    split <;> rfl
  · intro hnm
    simp only [settlePlayer, settleAllPay]
    rw [if_neg (by simpa [List.elem_iff] using hnm)]
  · intro hm
    simp only [settlePlayer, settleAllPay]
    rw [if_pos (by simpa [List.elem_iff] using hm)]

theorem highestBidders_length_eq (bets : List (Nat × Int)) :
    (highestBiddersOf bets).length
      = (bets.filter (fun b => b.2 = highestBidOf bets)).length := by
  rw [highestBiddersOf, List.length_map]

theorem secondHighest_exists_of_single {bets : List (Nat × Int)}
    (hlen : 2 ≤ bets.length) (hone : (highestBiddersOf bets).length = 1) :
    ∃ s, secondHighestOf bets = some s := by
  have hne : bets ≠ [] := by
    intro h
    rw [h] at hlen
    simp at hlen
  by_cases hall : ∀ b ∈ bets, b.2 = highestBidOf bets
  · exfalso
    have hfe : bets.filter (fun b => b.2 = highestBidOf bets) = bets :=
      List.filter_eq_self.mpr (fun b hb => by simpa using hall b hb)
    rw [highestBidders_length_eq, hfe] at hone
    omega
  · push_neg at hall
    obtain ⟨b, hb, hbne⟩ := hall
    have hblt : b.2 < highestBidOf bets :=
      lt_of_le_of_ne (le_highestBid hne b hb) hbne
    have hmem : b.2 ∈ (amountsOf bets).filter (fun a => a < highestBidOf bets) :=
      List.mem_filter.mpr ⟨List.mem_map.mpr ⟨b, hb, rfl⟩, by simpa using hblt⟩
    obtain ⟨s, hs, _, _⟩ := max?_spec (List.ne_nil_of_mem hmem)
    refine ⟨s, ?_⟩
    rw [secondHighestOf, if_pos (by omega)]
    exact hs

/-- C2: settling a Vickrey round charges only the highest bidders: a
sole winner pays the second-highest bid (which exists whenever the
closed ledger holds at least two bids), tied winners each pay the
third-highest bid when it exists, else the second-highest, else 0, and
everyone else pays nothing.  The relation pairs each pre-settlement
player with their post-settlement state in join order. -/
theorem vickrey_settlement (g : Game) (hmode : g.gameMode = .vickrey)
    (hlen : 2 ≤ g.bets.length) :
    List.Forall₂ (fun p q =>
        (p.id ∉ highestBiddersOf g.bets → q.money = p.money) ∧
        (p.id ∈ highestBiddersOf g.bets →
          ((highestBiddersOf g.bets).length = 1 →
            ∃ s, secondHighestOf g.bets = some s ∧ q.money = p.money - s) ∧
          (1 < (highestBiddersOf g.bets).length →
            q.money = p.money -
              ((thirdHighestOf g.bets).getD ((secondHighestOf g.bets).getD 0)))))
      g.players (completeRound g).players := by
  have hne : g.bets ≠ [] := by
    intro h
    rw [h] at hlen
    simp at hlen
  rw [completeRound_players_of_ne g hne, hmode]
  rw [List.forall₂_map_right_iff, List.forall₂_same]
  intro p _
  constructor
  · intro hnm
    simp only [settlePlayer, settleVickrey]
    rw [if_neg (by simpa [List.elem_iff] using hnm)]
  · intro hm
    constructor
    · intro hone
      obtain ⟨s, hs⟩ := secondHighest_exists_of_single hlen hone
      refine ⟨s, hs, ?_⟩
      simp only [settlePlayer, settleVickrey]
      rw [if_pos (by simpa [List.elem_iff] using hm)]
      simp only [vickreyPayOf]
      rw [if_pos hone, hs]
      rfl
    · intro htie
      simp only [settlePlayer, settleVickrey]
      rw [if_pos (by simpa [List.elem_iff] using hm)]
      simp only [vickreyPayOf]
      rw [if_neg (by omega)]

theorem creditOf_eq (bets : List (Nat × Int)) :
    creditOf bets = getFractionalWinAmount (highestBiddersOf bets).length := by
  rw [creditOf]
  split
  · next h => rw [h]; rfl
  · rfl

theorem completeRound_players_of_empty (g : Game) (h : g.bets = []) :
    (completeRound g).players = g.players := by
  rw [completeRound]
  simp [h]

theorem sum_map_ite (l : List Player) (s : List Nat) (c : Rat) :
    (l.map (fun p => if s.contains p.id then c else 0)).sum
      = ((l.countP (fun p => s.contains p.id) : Nat) : Rat) * c := by
  induction l with
  | nil => simp
  | cons x xs ih =>
    rw [List.map_cons, List.sum_cons, ih, List.countP_cons]
    by_cases hx : s.contains x.id = true
    · rw [if_pos hx, if_pos hx]
      push_cast
      ring
    · rw [if_neg hx, if_neg hx]
      push_cast
      ring

theorem countP_mem_eq_length {ids s : List Nat} (hids : ids.Nodup)
    (hs : s.Nodup) (hsub : ∀ x ∈ s, x ∈ ids) :
    ids.countP (fun x => s.contains x) = s.length := by
  rw [List.countP_eq_length_filter]
  have hperm : List.Perm (ids.filter (fun x => s.contains x)) s := by
    apply List.perm_of_nodup_nodup_toFinset_eq (hids.filter _) hs
    ext a
    simp only [List.mem_toFinset, List.mem_filter, List.elem_iff, List.contains]
    constructor
    · rintro ⟨_, h⟩
      exact h
    · intro h
      exact ⟨hsub a h, h⟩
  exact hperm.length_eq

theorem highestBidders_nodup {bets : List (Nat × Int)}
    (h : (bets.map Prod.fst).Nodup) : (highestBiddersOf bets).Nodup :=
  h.sublist ((List.filter_sublist bets).map Prod.fst)

theorem highestBidders_sub {g : Game} (hkeysSub : ∀ b ∈ g.bets, b.1 ∈ idsOf g) :
    ∀ x ∈ highestBiddersOf g.bets, x ∈ g.players.map Player.id := by
  intro x hx
  exact hkeysSub _ ((mem_highestBidders_iff x g.bets).mp hx)

theorem credit_sum_round_aux (g : Game)
    (hidsNodup : (g.players.map Player.id).Nodup)
    (hkeysNodup : (g.bets.map Prod.fst).Nodup)
    (hkeysSub : ∀ b ∈ g.bets, b.1 ∈ idsOf g) :
    ((completeRound g).players.map Player.roundsWon).sum
      = (g.players.map Player.roundsWon).sum
        + (if g.bets.isEmpty then 0
           else ((highestBiddersOf g.bets).length : Rat)
             * getFractionalWinAmount (highestBiddersOf g.bets).length) := by
  by_cases hne : g.bets = []
  · rw [completeRound_players_of_empty g hne]
    simp [hne]
  · rw [if_neg (by simpa [List.isEmpty_iff] using hne)]
    rw [completeRound_players_of_ne g hne, List.map_map]
    have hcong : g.players.map (Player.roundsWon ∘ settlePlayer g.gameMode g.bets)
        = g.players.map (fun p => p.roundsWon +
            (if (highestBiddersOf g.bets).contains p.id then creditOf g.bets else 0)) :=
      List.map_congr_left (fun p _ => settlePlayer_roundsWon _ _ p)
    rw [hcong, List.sum_map_add, sum_map_ite]
    have hcount : g.players.countP (fun p => (highestBiddersOf g.bets).contains p.id)
        = (highestBiddersOf g.bets).length := by
      have hmapped : (g.players.map Player.id).countP
          (fun x => (highestBiddersOf g.bets).contains x)
          = g.players.countP (fun p => (highestBiddersOf g.bets).contains p.id) :=
        List.countP_map _ _ _
      rw [← hmapped]
      exact countP_mem_eq_length hidsNodup (highestBidders_nodup hkeysNodup)
        (highestBidders_sub hkeysSub)
    rw [hcount, creditOf_eq]

/-- C3 (amended): the total win credit a settled round adds across all
players equals the number of tied winners times the per-winner credit
from the table (1, 0.5, 0.4, 0.3, 0.2); this total is 1 for one or two
winners but exceeds 1 for three or four winners (1.2 each) and for six
or more. -/
theorem credit_sum_per_round (g : Game)
    (hidsNodup : (g.players.map Player.id).Nodup)
    (hkeysNodup : (g.bets.map Prod.fst).Nodup)
    (hkeysSub : ∀ b ∈ g.bets, b.1 ∈ idsOf g) :
    ((completeRound g).players.map Player.roundsWon).sum
      = (g.players.map Player.roundsWon).sum
        + (if g.bets.isEmpty then 0
           else ((highestBiddersOf g.bets).length : Rat)
             * getFractionalWinAmount (highestBiddersOf g.bets).length) :=
  credit_sum_round_aux g hidsNodup hkeysNodup hkeysSub

/-- C3 counterexample: in the three-way tie game every winner receives
0.4, so the credit handed out in the round totals 1.2, exceeding 1. -/
theorem credit_sum_cex :
    (((completeRound c3Game).players.map Player.roundsWon).sum = 6/5) ∧
    ¬ (((completeRound c3Game).players.map Player.roundsWon).sum ≤ 1) := by
  have h := credit_sum_round_aux c3Game (by decide) (by decide) (by decide)
  have hlen : (highestBiddersOf c3Game.bets).length = 3 := by decide
  have hpre : (c3Game.players.map Player.roundsWon).sum = 0 := by
    norm_num [c3Game, mkGame, mkPlayer]
  have hie : c3Game.bets.isEmpty = false := by decide
  have hfrac : getFractionalWinAmount 3 = 2/5 := rfl
  rw [hlen, hpre, hfrac, hie] at h
  simp only [Bool.false_eq_true, if_false] at h
  rw [h]
  constructor
  · norm_num
  · norm_num

/-- C3 witness: the per-round credit formula instantiated at the
three-way-tie game. -/
theorem credit_sum_per_round_witness :
    ((completeRound c3Game).players.map Player.roundsWon).sum
      = (c3Game.players.map Player.roundsWon).sum
        + (if c3Game.bets.isEmpty then 0
           else ((highestBiddersOf c3Game.bets).length : Rat)
             * getFractionalWinAmount (highestBiddersOf c3Game.bets).length) :=
  credit_sum_per_round c3Game (by decide) (by decide) (by decide)

theorem tied_ne_nil (g : Game) (hne : g.players ≠ []) : tiedAtMaxWins g ≠ [] := by
  have hmap : g.players.map Player.roundsWon ≠ [] := by
    simpa using hne
  obtain ⟨m, hm, hmem, _⟩ := max?_spec hmap
  obtain ⟨p, hp, hpw⟩ := List.mem_map.mp hmem
  have : p ∈ tiedAtMaxWins g := by
    rw [tiedAtMaxWins]
    refine List.mem_filter.mpr ⟨hp, ?_⟩
    rw [maxWinsOf, hm]
    simpa using hpw
  exact List.ne_nil_of_mem this

theorem players_le_maxWins (g : Game) (hne : g.players ≠ []) :
    ∀ p ∈ g.players, p.roundsWon ≤ maxWinsOf g := by
  have hmap : g.players.map Player.roundsWon ≠ [] := by
    simpa using hne
  obtain ⟨m, hm, _, hle⟩ := max?_spec hmap
  intro p hp
  rw [maxWinsOf, hm]
  exact hle p.roundsWon (List.mem_map.mpr ⟨p, hp, rfl⟩)

theorem dOW_eq_find {g : Game} {w : Player} (hmode : g.gameMode = .allPay)
    (hfind : g.players.find? (fun p => g.roundsToWin ≤ p.roundsWon) = some w) :
    (determineOverallWinner g).overallWinner = some w := by
  rw [determineOverallWinner]
  simp only [hmode, if_true, hfind]

theorem dOW_tie {g : Game} {w : Player} {rest : List Player}
    (hnone : (if g.gameMode = .allPay then
        g.players.find? (fun p => g.roundsToWin ≤ p.roundsWon) else none) = none)
    (ht : tiedAtMaxWins g = w :: rest) :
    (determineOverallWinner g).overallWinner = some (rest.foldl richerOf w) := by
  rw [determineOverallWinner]
  simp only [hnone, ht]

theorem resolver_tie_characterization (g : Game) (hne : g.players ≠ [])
    (hnone : (if g.gameMode = .allPay then
        g.players.find? (fun p => g.roundsToWin ≤ p.roundsWon) else none) = none) :
    ∃ w, (determineOverallWinner g).overallWinner = some w ∧
      w.roundsWon = maxWinsOf g ∧
      (∀ p ∈ g.players, p.roundsWon ≤ maxWinsOf g) ∧
      (∀ p ∈ tiedAtMaxWins g, p.money ≤ w.money) ∧
      ∃ t1 t2, tiedAtMaxWins g = t1 ++ w :: t2 ∧ ∀ p ∈ t2, p.money < w.money := by
  obtain ⟨w0, rest, ht⟩ : ∃ w0 rest, tiedAtMaxWins g = w0 :: rest := by
    cases h : tiedAtMaxWins g with
    | nil => exact absurd h (tied_ne_nil g hne)
    | cons a l => exact ⟨a, l, rfl⟩
  obtain ⟨t1, t2, hsplit, h1, h2⟩ := foldl_richerOf_spec w0 rest
  have hmem : rest.foldl richerOf w0 ∈ tiedAtMaxWins g := by
    rw [ht, hsplit]
    exact List.mem_append_right _ (List.mem_cons_self _ _)
  refine ⟨rest.foldl richerOf w0, dOW_tie hnone ht, ?_, players_le_maxWins g hne,
    ?_, t1, t2, by rw [ht]; exact hsplit, h2⟩
  · have := (List.mem_filter.mp hmem).2
    simpa using this
  · intro p hp
    rw [ht, hsplit] at hp
    rcases List.mem_append.mp hp with hp1 | hp2
    · exact h1 p hp1
    · rcases List.mem_cons.mp hp2 with rfl | hp3
      · exact le_refl _
      · exact le_of_lt (h2 p hp3)

/-- C1 (amended): at game end the resolver always returns exactly one
winner.  In All-Pay mode, when some player holds 3 or more wins, the
winner is the first such player in join order.  Otherwise, in every
mode, the winner attains `maxWins` and has the greatest money among the
players tied at `maxWins`; when several tied players also tie on money
the resolver picks the last such player in join order (everything after
the winner in the tied list has strictly less money). -/
theorem overall_winner_resolution (g : Game) (hne : g.players ≠ [])
    (h3 : g.roundsToWin = 3) :
    ∃ w, (determineOverallWinner g).overallWinner = some w ∧
      ((g.gameMode = .allPay ∧ ∃ p ∈ g.players, (3 : Rat) ≤ p.roundsWon) →
        ((3 : Rat) ≤ w.roundsWon ∧
         ∃ l1 l2, g.players = l1 ++ w :: l2 ∧ ∀ p ∈ l1, p.roundsWon < 3)) ∧
      (¬ (g.gameMode = .allPay ∧ ∃ p ∈ g.players, (3 : Rat) ≤ p.roundsWon) →
        (w.roundsWon = maxWinsOf g ∧
         (∀ p ∈ g.players, p.roundsWon ≤ maxWinsOf g) ∧
         (∀ p ∈ tiedAtMaxWins g, p.money ≤ w.money) ∧
         ∃ t1 t2, tiedAtMaxWins g = t1 ++ w :: t2 ∧
           ∀ p ∈ t2, p.money < w.money)) := by
  by_cases hc : g.gameMode = .allPay ∧ ∃ p ∈ g.players, (3 : Rat) ≤ p.roundsWon
  · obtain ⟨hmode, p, hp, hp3⟩ := hc
    have hfs : (g.players.find? (fun q => g.roundsToWin ≤ q.roundsWon)).isSome := by
      refine List.find?_isSome.mpr ⟨p, hp, ?_⟩
      rw [h3]
      simpa using hp3
    obtain ⟨w, hfind⟩ := Option.isSome_iff_exists.mp hfs
    refine ⟨w, dOW_eq_find hmode hfind, ?_, ?_⟩
    · intro _
      obtain ⟨hw, l1, l2, hsplit, hall⟩ := find?_split hfind
      refine ⟨?_, l1, l2, hsplit, ?_⟩
      · have hw' : g.roundsToWin ≤ w.roundsWon := by simpa using hw
        rw [h3] at hw'
        exact hw'
      · intro q hq
        have hqf : ¬ (g.roundsToWin ≤ q.roundsWon) := by simpa using hall q hq
        rw [h3] at hqf
        exact not_le.mp hqf
    · intro hcon
      exact absurd ⟨hmode, p, hp, hp3⟩ hcon
  · have hnone : (if g.gameMode = .allPay then
        g.players.find? (fun q => g.roundsToWin ≤ q.roundsWon) else none) = none := by
      by_cases hmode : g.gameMode = .allPay
      · rw [if_pos hmode]
        cases hfind : g.players.find? (fun q => g.roundsToWin ≤ q.roundsWon) with
        | none => rfl
        | some w =>
          exfalso
          apply hc
          refine ⟨hmode, w, List.mem_of_find?_eq_some hfind, ?_⟩
          have hw : g.roundsToWin ≤ w.roundsWon := by
            simpa using List.find?_some hfind
          rw [h3] at hw
          exact hw
      · rw [if_neg hmode]
    obtain ⟨w, hdw, hmax, hle, hmon, t1, t2, hsplit, hlast⟩ :=
      resolver_tie_characterization g hne hnone
    exact ⟨w, hdw, fun h => absurd h hc,
      fun _ => ⟨hmax, hle, hmon, t1, t2, hsplit, hlast⟩⟩

/-- C1 counterexample: with two players tied at `maxWins` and at money,
the resolver returns the second player in join order, not the first —
the source's `reduce` keeps `current` on equal money. -/
theorem overall_winner_money_tie_cex :
    c1Game.players.map (fun p => (p.id, p.roundsWon, p.money))
      = [(1, 1, 50), (2, 1, 50)] ∧
    tiedAtMaxWins c1Game = c1Game.players ∧
    ((determineOverallWinner c1Game).overallWinner).map Player.id = some 2 := by
  refine ⟨by decide, by decide, by decide⟩

/-- C1 witness: the amended resolver characterization instantiated at
the two-way tied game. -/
theorem overall_winner_resolution_witness :
    ∃ w, (determineOverallWinner c1Game).overallWinner = some w ∧
      ((c1Game.gameMode = .allPay ∧ ∃ p ∈ c1Game.players, (3 : Rat) ≤ p.roundsWon) →
        ((3 : Rat) ≤ w.roundsWon ∧
         ∃ l1 l2, c1Game.players = l1 ++ w :: l2 ∧ ∀ p ∈ l1, p.roundsWon < 3)) ∧
      (¬ (c1Game.gameMode = .allPay ∧ ∃ p ∈ c1Game.players, (3 : Rat) ≤ p.roundsWon) →
        (w.roundsWon = maxWinsOf c1Game ∧
         (∀ p ∈ c1Game.players, p.roundsWon ≤ maxWinsOf c1Game) ∧
         (∀ p ∈ tiedAtMaxWins c1Game, p.money ≤ w.money) ∧
         ∃ t1 t2, tiedAtMaxWins c1Game = t1 ++ w :: t2 ∧
           ∀ p ∈ t2, p.money < w.money)) :=
  overall_winner_resolution c1Game (by decide) rfl

/-! Inversion lemmas: what a successful operation implies about the
pre-state and how it builds the post-state. -/

theorem joinGame_ok_inv {g : Game} {pid : Nat} {name : String} {g' : Game}
    (h : joinGame g pid name = .ok g') :
    g.status = .waiting ∧
    g' = { g with
      players := g.players ++
        [{ id := pid, name := name, money := 100, roundsWon := 0, host := false }],
      totalRounds := getTotalRoundsForPlayerCount (g.players.length + 1) } := by
  rw [joinGame] at h
  by_cases h1 : g.status ≠ .waiting
  · rw [if_pos h1] at h
    exact (Except.noConfusion h)
  · rw [if_neg h1] at h
    by_cases h2 : g.players.any (fun p => p.name = name) = true
    · rw [if_pos h2] at h
      exact (Except.noConfusion h)
    · rw [if_neg h2] at h
      obtain rfl := (Except.ok.inj h).symm
      refine ⟨not_not.mp h1, ?_⟩
      simp [List.length_append]

theorem startGame_ok_inv {g : Game} {pid : Nat} {g' : Game}
    (h : startGame g pid = .ok g') :
    g.status = .waiting ∧ 2 ≤ g.players.length ∧
    g' = { g with status := .betting, currentRound := 1, bets := [] } := by
  rw [startGame] at h
  cases hf : g.players.find? (fun p => p.id = pid) with
  | none =>
    simp only [hf] at h
    exact (Except.noConfusion h)
  | some player =>
    simp only [hf] at h
    by_cases h1 : player.host = false
    · rw [if_pos h1] at h
      exact (Except.noConfusion h)
    · rw [if_neg h1] at h
      by_cases h2 : g.players.length < 2
      · rw [if_pos h2] at h
        exact (Except.noConfusion h)
      · rw [if_neg h2] at h
        by_cases h3 : g.status ≠ .waiting
        · rw [if_pos h3] at h
          exact (Except.noConfusion h)
        · rw [if_neg h3] at h
          exact ⟨not_not.mp h3, le_of_not_lt h2, (Except.ok.inj h).symm⟩

theorem placeBid_ok_inv {g : Game} {pid : Nat} {amount : Int} {g' : Game}
    (h : placeBid g pid amount = .ok g') :
    g.status = .betting ∧ betLookup pid g.bets = none ∧ 0 ≤ amount ∧
    (∃ player, g.players.find? (fun p => p.id = pid) = some player ∧
      amount ≤ player.money) ∧
    (g' = completeRound { g with bets := g.bets ++ [(pid, amount)] } ∨
     g' = { g with bets := g.bets ++ [(pid, amount)] }) := by
  rw [placeBid] at h
  cases hf : g.players.find? (fun p => p.id = pid) with
  | none =>
    simp only [hf] at h
    exact (Except.noConfusion h)
  | some player =>
    simp only [hf] at h
    by_cases h1 : g.status ≠ .betting
    · rw [if_pos h1] at h
      exact (Except.noConfusion h)
    · rw [if_neg h1] at h
      by_cases h2 : (betLookup pid g.bets).isSome
      · rw [if_pos h2] at h
        exact (Except.noConfusion h)
      · rw [if_neg h2] at h
        by_cases h3 : amount < 0 ∨ player.money < amount
        · rw [if_pos h3] at h
          exact (Except.noConfusion h)
        · rw [if_neg h3] at h
          push_neg at h3
          refine ⟨not_not.mp h1, Option.not_isSome_iff_eq_none.mp h2, h3.1,
            ⟨player, rfl, h3.2⟩, ?_⟩
          split at h
          · exact Or.inl (Except.ok.inj h).symm
          · exact Or.inr (Except.ok.inj h).symm

theorem nextRound_ok_inv {g : Game} {pid : Nat} {g' : Game}
    (h : nextRound g pid = .ok g') :
    g.status = .roundComplete ∧
    (g' = determineOverallWinner { g with status := .gameComplete } ∨
     g' = { g with
        currentRound := g.currentRound + 1,
        status := .betting,
        bets := [],
        roundWinners := none,
        showRoundResults := false }) := by
  rw [nextRound] at h
  cases hf : g.players.find? (fun p => p.id = pid) with
  | none =>
    simp only [hf] at h
    exact (Except.noConfusion h)
  | some player =>
    simp only [hf] at h
    by_cases h1 : player.host = false
    · rw [if_pos h1] at h
      exact (Except.noConfusion h)
    · rw [if_neg h1] at h
      by_cases h2 : g.status ≠ .roundComplete
      · rw [if_pos h2] at h
        exact (Except.noConfusion h)
      · rw [if_neg h2] at h
        refine ⟨not_not.mp h2, ?_⟩
        split at h
        · exact Or.inl (Except.ok.inj h).symm
        · exact Or.inr (Except.ok.inj h).symm

theorem resetGame_ok_inv {g : Game} {pid : Nat} {g' : Game}
    (h : resetGame g pid = .ok g') :
    g' = { g with
      players := g.players.map (fun p => { p with money := 100, roundsWon := 0 }),
      currentRound := 0, status := .waiting, bets := [], roundWinners := none,
      overallWinner := none, lastRoundBets := [], showRoundResults := false,
      secondHighestBid := none, actualPayments := [] } := by
  rw [resetGame] at h
  cases hf : g.players.find? (fun p => p.id = pid) with
  | none =>
    simp only [hf] at h
    exact (Except.noConfusion h)
  | some player =>
    simp only [hf] at h
    by_cases h1 : player.host = false
    · rw [if_pos h1] at h
      exact (Except.noConfusion h)
    · rw [if_neg h1] at h
      exact (Except.ok.inj h).symm

theorem settleAllPay_money (bets : List (Nat × Int)) (p : Player) :
    (settleAllPay bets p).money = p.money - (betLookup p.id bets).getD 0 := by
  simp only [settleAllPay]
  split <;> rfl

theorem settleStandard_money (bets : List (Nat × Int)) (p : Player) :
    (settleStandard bets p).money = p.money -
      (if (highestBiddersOf bets).contains p.id then highestBidOf bets else 0) := by
  simp only [settleStandard]
  split
  · rfl
  · simp

theorem settleVickrey_money (bets : List (Nat × Int)) (p : Player) :
    (settleVickrey bets p).money = p.money -
      (if (highestBiddersOf bets).contains p.id then vickreyPayOf bets else 0) := by
  simp only [settleVickrey]
  split
  · rfl
  · simp

theorem settlePlayer_money_nonneg {bets : List (Nat × Int)} {p : Player}
    (mode : GameMode) (hne : bets ≠ []) (hnn : ∀ b ∈ bets, 0 ≤ b.2)
    (hp0 : 0 ≤ p.money)
    (hbound : ∀ b ∈ bets, b.1 = p.id → b.2 ≤ p.money) :
    0 ≤ (settlePlayer mode bets p).money := by
  have hhb : p.id ∈ highestBiddersOf bets → highestBidOf bets ≤ p.money :=
    fun hm => hbound _ ((mem_highestBidders_iff p.id bets).mp hm) rfl
  cases mode with
  | allPay =>
    show 0 ≤ (settleAllPay bets p).money
    rw [settleAllPay_money]
    cases hlk : betLookup p.id bets with
    | none => simpa using hp0
    | some v =>
      have hv : v ≤ p.money := hbound _ (betLookup_mem hlk) rfl
      simp only [Option.getD_some]
      omega
  | standard =>
    show 0 ≤ (settleStandard bets p).money
    rw [settleStandard_money]
    by_cases hmem : (highestBiddersOf bets).contains p.id
    · rw [if_pos hmem]
      have := hhb (by simpa [List.elem_iff] using hmem)
      omega
    · rw [if_neg hmem]
      simpa using hp0
  | vickrey =>
    show 0 ≤ (settleVickrey bets p).money
    rw [settleVickrey_money]
    by_cases hmem : (highestBiddersOf bets).contains p.id
    · rw [if_pos hmem]
      have h1 := hhb (by simpa [List.elem_iff] using hmem)
      have h2 := vickreyPay_le_highest hne hnn
      omega
    · rw [if_neg hmem]
      simpa using hp0

theorem completeRound_ids (g : Game) :
    (completeRound g).players.map Player.id = g.players.map Player.id := by
  by_cases hne : g.bets = []
  · rw [completeRound_players_of_empty g hne]
  · rw [completeRound_players_of_ne g hne, List.map_map]
    exact List.map_congr_left (fun p _ => settlePlayer_id _ _ p)

theorem completeRound_status_ne_waiting (g : Game) :
    (completeRound g).status ≠ .waiting := by
  rw [completeRound]
  split
  · simp
  · split
    · rw [(determineOverallWinner_frame _).2.2.1]
      simp
    · simp [settledGame]

theorem completeRound_roundsToWin (g : Game) :
    (completeRound g).roundsToWin = g.roundsToWin := by
  rw [completeRound]
  split
  · rfl
  · split
    · rw [(determineOverallWinner_frame _).2.2.2.2.2.2]
      simp [settledGame]
    · rfl

/-- The state invariant maintained by every engine operation: a
non-empty player list with distinct ids and non-negative balances, a
well-keyed ledger of non-negative bids each bounded (while betting is
open) by its bidder's balance, the constant win threshold, the
round-count policy, and the at-least-two-players guarantee of every
started game. -/
structure Inv (g : Game) : Prop where
  playersNe : g.players ≠ []
  idsNodup : (g.players.map Player.id).Nodup
  moneyNonneg : ∀ p ∈ g.players, 0 ≤ p.money
  betsKeysNodup : (g.bets.map Prod.fst).Nodup
  betsKeysSub : ∀ b ∈ g.bets, b.1 ∈ g.players.map Player.id
  betsNonneg : ∀ b ∈ g.bets, 0 ≤ b.2
  betsBound : g.status = .betting →
    ∀ b ∈ g.bets, ∀ p ∈ g.players, p.id = b.1 → b.2 ≤ p.money
  roundsToWin3 : g.roundsToWin = 3
  totalRoundsEq : g.totalRounds = getTotalRoundsForPlayerCount g.players.length
  started2 : g.status ≠ .waiting → 2 ≤ g.players.length

theorem inv_completeRound {g : Game} (hInv : Inv g) (hst : g.status = .betting) :
    Inv (completeRound g) := by
  have hids := completeRound_ids g
  have hbets := completeRound_bets g
  have hlen := completeRound_players_length g
  refine ⟨?_, ?_, ?_, ?_, ?_, ?_, ?_, ?_, ?_, ?_⟩
  · intro hcon
    apply hInv.playersNe
    rw [hcon] at hlen
    exact List.length_eq_zero.mp hlen.symm
  · rw [hids]
    exact hInv.idsNodup
  · by_cases hne : g.bets = []
    · rw [completeRound_players_of_empty g hne]
      exact hInv.moneyNonneg
    · rw [completeRound_players_of_ne g hne]
      intro q hq
      obtain ⟨p, hp, rfl⟩ := List.mem_map.mp hq
      exact settlePlayer_money_nonneg _ hne hInv.betsNonneg (hInv.moneyNonneg p hp)
        (fun b hb hbid => hInv.betsBound hst b hb p hp hbid.symm)
  · rw [hbets]
    exact hInv.betsKeysNodup
  · rw [hbets, hids]
    exact hInv.betsKeysSub
  · rw [hbets]
    exact hInv.betsNonneg
  · intro hstat
    exact absurd hstat (completeRound_status_ne_betting g)
  · rw [completeRound_roundsToWin]
    exact hInv.roundsToWin3
  · rw [completeRound_totalRounds, hlen]
    exact hInv.totalRoundsEq
  · intro _
    rw [hlen]
    exact hInv.started2 (by rw [hst]; simp)

theorem inv_determineOverallWinner {g : Game} (hInv : Inv g) :
    Inv (determineOverallWinner g) := by
  obtain ⟨hp, hb, hs, _, ht, _, hw⟩ := determineOverallWinner_frame g
  refine ⟨?_, ?_, ?_, ?_, ?_, ?_, ?_, ?_, ?_, ?_⟩
  · rw [hp]
    exact hInv.playersNe
  · rw [hp]
    exact hInv.idsNodup
  · rw [hp]
    exact hInv.moneyNonneg
  · rw [hb]
    exact hInv.betsKeysNodup
  · rw [hb, hp]
    exact hInv.betsKeysSub
  · rw [hb]
    exact hInv.betsNonneg
  · rw [hs, hb, hp]
    exact hInv.betsBound
  · rw [hw]
    exact hInv.roundsToWin3
  · rw [ht, hp]
    exact hInv.totalRoundsEq
  · rw [hs, hp]
    exact hInv.started2

theorem inv_init (mode : GameMode) (hostId : Nat) (hostName : String) :
    Inv (initGame mode hostId hostName) := by
  refine ⟨?_, ?_, ?_, ?_, ?_, ?_, ?_, rfl, rfl, ?_⟩
  · simp [initGame]
  · simp [initGame]
  · intro p hp
    simp [initGame] at hp
    rw [hp]
    exact show (0:Int) ≤ 100 by decide
  · simp [initGame]
  · intro b hb
    simp [initGame] at hb
  · intro b hb
    simp [initGame] at hb
  · intro _ b hb
    simp [initGame] at hb
  · intro hcon
    exact absurd rfl hcon

theorem inv_join {g : Game} {pid : Nat} {name : String} {g' : Game}
    (hInv : Inv g) (hfresh : pid ∉ idsOf g) (h : joinGame g pid name = .ok g') :
    Inv g' := by
  obtain ⟨hwait, rfl⟩ := joinGame_ok_inv h
  refine ⟨?_, ?_, ?_, hInv.betsKeysNodup, ?_, hInv.betsNonneg, ?_, hInv.roundsToWin3,
    ?_, ?_⟩
  · simp
  · show ((g.players ++ [_]).map Player.id).Nodup
    rw [List.map_append, List.nodup_append]
    refine ⟨hInv.idsNodup, by simp, ?_⟩
    intro a ha hb
    simp at hb
    rw [hb] at ha
    exact hfresh ha
  · intro p hp
    rcases List.mem_append.mp hp with hold | hnew
    · exact hInv.moneyNonneg p hold
    · simp at hnew
      rw [hnew]
      exact show (0:Int) ≤ 100 by decide
  · intro b hb
    show b.1 ∈ (g.players ++ [_]).map Player.id
    rw [List.map_append]
    exact List.mem_append_left _ (hInv.betsKeysSub b hb)
  · intro hbet
    have hbet' : g.status = .betting := hbet
    rw [hwait] at hbet'
    exact Status.noConfusion hbet'
  · show getTotalRoundsForPlayerCount (g.players.length + 1)
      = getTotalRoundsForPlayerCount (g.players ++ [_]).length
    rw [List.length_append]
    rfl
  · intro hcon
    have : g.status ≠ .waiting := hcon
    exact absurd hwait this

theorem inv_start {g : Game} {pid : Nat} {g' : Game}
    (hInv : Inv g) (h : startGame g pid = .ok g') : Inv g' := by
  obtain ⟨_, h2, rfl⟩ := startGame_ok_inv h
  refine ⟨hInv.playersNe, hInv.idsNodup, hInv.moneyNonneg, ?_, ?_, ?_, ?_,
    hInv.roundsToWin3, hInv.totalRoundsEq, ?_⟩
  · simp
  · intro b hb
    simp at hb
  · intro b hb
    simp at hb
  · intro _ b hb
    simp at hb
  · intro _
    exact h2

theorem inv_bid {g : Game} {pid : Nat} {amount : Int} {g' : Game}
    (hInv : Inv g) (h : placeBid g pid amount = .ok g') : Inv g' := by
  obtain ⟨hbetting, hnone, h0, ⟨player, hfind, hple⟩, hcase⟩ := placeBid_ok_inv h
  have hpid : player.id = pid := by simpa using List.find?_some hfind
  have hg1 : Inv { g with bets := g.bets ++ [(pid, amount)] } := by
    refine ⟨hInv.playersNe, hInv.idsNodup, hInv.moneyNonneg, ?_, ?_, ?_, ?_,
      hInv.roundsToWin3, hInv.totalRoundsEq, ?_⟩
    · show ((g.bets ++ [(pid, amount)]).map Prod.fst).Nodup
      rw [List.map_append, List.nodup_append]
      refine ⟨hInv.betsKeysNodup, by simp, ?_⟩
      intro a ha hb
      simp at hb
      rw [hb] at ha
      exact (betLookup_eq_none_iff pid g.bets).mp hnone ha
    · intro b hb
      rcases List.mem_append.mp hb with hold | hnew
      · exact hInv.betsKeysSub b hold
      · simp at hnew
        rw [hnew]
        exact List.mem_map.mpr ⟨player, List.mem_of_find?_eq_some hfind, hpid⟩
    · intro b hb
      rcases List.mem_append.mp hb with hold | hnew
      · exact hInv.betsNonneg b hold
      · simp at hnew
        rw [hnew]
        exact h0
    · intro _ b hb p hp hpb
      rcases List.mem_append.mp hb with hold | hnew
      · exact hInv.betsBound hbetting b hold p hp hpb
      · simp at hnew
        rw [hnew] at hpb ⊢
        have hpp : p = player := by
          have h1 := find?_id_of_nodup hInv.idsNodup hp hpb
          rw [hfind] at h1
          exact (Option.some.inj h1).symm
        rw [hpp]
        exact hple
    · intro _
      exact hInv.started2 (by rw [hbetting]; simp)
  rcases hcase with rfl | rfl
  · exact inv_completeRound hg1 hbetting
  · exact hg1

theorem inv_advance {g : Game} {pid : Nat} {g' : Game}
    (hInv : Inv g) (h : nextRound g pid = .ok g') : Inv g' := by
  obtain ⟨hrc, hcase⟩ := nextRound_ok_inv h
  rcases hcase with rfl | rfl
  · have hmid : Inv { g with status := Status.gameComplete } := by
      refine ⟨hInv.playersNe, hInv.idsNodup, hInv.moneyNonneg, hInv.betsKeysNodup,
        hInv.betsKeysSub, hInv.betsNonneg, ?_, hInv.roundsToWin3,
        hInv.totalRoundsEq, ?_⟩
      · intro hbet
        exact Status.noConfusion hbet
      · intro _
        exact hInv.started2 (by rw [hrc]; simp)
    exact inv_determineOverallWinner hmid
  · refine ⟨hInv.playersNe, hInv.idsNodup, hInv.moneyNonneg, ?_, ?_, ?_, ?_,
      hInv.roundsToWin3, hInv.totalRoundsEq, ?_⟩
    · simp
    · intro b hb
      simp at hb
    · intro b hb
      simp at hb
    · intro _ b hb
      simp at hb
    · intro _
      exact hInv.started2 (by rw [hrc]; simp)

theorem inv_reset {g : Game} {pid : Nat} {g' : Game}
    (hInv : Inv g) (h : resetGame g pid = .ok g') : Inv g' := by
  obtain rfl := resetGame_ok_inv h
  refine ⟨?_, ?_, ?_, ?_, ?_, ?_, ?_, hInv.roundsToWin3, ?_, ?_⟩
  · intro hcon
    apply hInv.playersNe
    simpa using hcon
  · show ((g.players.map _).map Player.id).Nodup
    rw [List.map_map]
    exact hInv.idsNodup
  · intro q hq
    obtain ⟨p, _, rfl⟩ := List.mem_map.mp hq
    exact show (0:Int) ≤ 100 by decide
  · simp
  · intro b hb
    simp at hb
  · intro b hb
    simp at hb
  · intro hbet
    exact Status.noConfusion hbet
  · show g.totalRounds = getTotalRoundsForPlayerCount (g.players.map _).length
    rw [List.length_map]
    exact hInv.totalRoundsEq
  · intro hcon
    exact absurd rfl hcon

theorem inv_step {g g' : Game} (hInv : Inv g) (hs : Step g g') : Inv g' := by
  cases hs with
  | join _ _ _ hfresh h => exact inv_join hInv hfresh h
  | start _ _ h => exact inv_start hInv h
  | bid _ _ _ h => exact inv_bid hInv h
  | advance _ _ h => exact inv_advance hInv h
  | reset _ _ h => exact inv_reset hInv h

theorem reachable_inv {g : Game} (h : Reachable g) : Inv g := by
  induction h with
  | init mode hostId hostName => exact inv_init mode hostId hostName
  | step _ hs ih => exact inv_step ih hs

theorem c6Game2_reachable : Reachable c6Game2 :=
  Reachable.step
    (Reachable.step (Reachable.init .allPay 0 "alice")
      (Step.join _ 1 "bob" c6Game1 (by decide) rfl))
    (Step.start _ 0 c6Game2 rfl)

/-- C4: in every reachable game state, every player's money is
non-negative — bids are bounded by the bidder's balance at submission,
and no settlement payment in any mode drives a balance negative. -/
theorem money_nonneg_invariant (g : Game) (hr : Reachable g) :
    ∀ p ∈ g.players, 0 ≤ p.money :=
  (reachable_inv hr).moneyNonneg

/-- C4 witness: the invariant instantiated at a concrete reachable
two-player game in its betting phase, read off at its host. -/
theorem money_nonneg_invariant_witness :
    0 ≤ (mkPlayer 0 "alice" 100 0 true).money :=
  money_nonneg_invariant c6Game2 c6Game2_reachable
    (mkPlayer 0 "alice" 100 0 true) (by decide)

/-- C6: once a game has started, `totalRounds` is determined by the
player count at start — 5 for at most two players, 7 for exactly three,
9 for four or more — and no further operation changes `totalRounds` or
the player count. -/
theorem totalRounds_policy (g : Game) (hr : Reachable g)
    (hs : g.status ≠ .waiting) :
    (g.players.length ≤ 2 → g.totalRounds = 5) ∧
    (g.players.length = 3 → g.totalRounds = 7) ∧
    (4 ≤ g.players.length → g.totalRounds = 9) ∧
    (∀ g', Step g g' → g'.totalRounds = g.totalRounds ∧
      g'.players.length = g.players.length) := by
  have heq := (reachable_inv hr).totalRoundsEq
  refine ⟨?_, ?_, ?_, ?_⟩
  · intro h2
    rw [heq]
    unfold getTotalRoundsForPlayerCount
    rw [if_pos h2]
  · intro h3
    rw [heq]
    unfold getTotalRoundsForPlayerCount
    rw [if_neg (by omega), if_pos h3]
  · intro h4
    rw [heq]
    unfold getTotalRoundsForPlayerCount
    rw [if_neg (by omega), if_neg (by omega)]
  · intro g' hstep
    cases hstep with
    | join _ _ _ _ hop => exact absurd (joinGame_ok_inv hop).1 hs
    | start _ _ hop => exact absurd (startGame_ok_inv hop).1 hs
    | bid _ _ _ hop =>
      obtain ⟨_, _, _, _, hcase⟩ := placeBid_ok_inv hop
      rcases hcase with rfl | rfl
      · exact ⟨completeRound_totalRounds _, completeRound_players_length _⟩
      · exact ⟨rfl, rfl⟩
    | advance _ _ hop =>
      obtain ⟨_, hcase⟩ := nextRound_ok_inv hop
      rcases hcase with rfl | rfl
      · exact ⟨(determineOverallWinner_frame _).2.2.2.2.1,
          by rw [determineOverallWinner_players]⟩
      · exact ⟨rfl, rfl⟩
    | reset _ _ hop =>
      obtain rfl := resetGame_ok_inv hop
      exact ⟨rfl, by simp⟩

/-- C6 witness: the round-count policy instantiated at the concrete
reachable started two-player game, whose schedule is 5 rounds. -/
theorem totalRounds_policy_witness :
    (c6Game2.players.length ≤ 2 → c6Game2.totalRounds = 5) ∧
    (c6Game2.players.length = 3 → c6Game2.totalRounds = 7) ∧
    (4 ≤ c6Game2.players.length → c6Game2.totalRounds = 9) ∧
    (∀ g', Step c6Game2 g' → g'.totalRounds = c6Game2.totalRounds ∧
      g'.players.length = c6Game2.players.length) :=
  totalRounds_policy c6Game2 c6Game2_reachable (by decide)

/-- C2 witness: the Vickrey settlement relation instantiated at the
spec's example ledger 50, 30, 10. -/
theorem vickrey_settlement_witness :
    List.Forall₂ (fun p q =>
        (p.id ∉ highestBiddersOf c2Game.bets → q.money = p.money) ∧
        (p.id ∈ highestBiddersOf c2Game.bets →
          ((highestBiddersOf c2Game.bets).length = 1 →
            ∃ s, secondHighestOf c2Game.bets = some s ∧ q.money = p.money - s) ∧
          (1 < (highestBiddersOf c2Game.bets).length →
            q.money = p.money -
              ((thirdHighestOf c2Game.bets).getD
                ((secondHighestOf c2Game.bets).getD 0)))))
      c2Game.players (completeRound c2Game).players :=
  vickrey_settlement c2Game rfl (by decide)

/-- C7 witness: the bid acceptance characterization instantiated at a
concrete game and an affordable bid of 30. -/
theorem placeBid_spec_witness :
    ((∃ g', placeBid c7Game 2 30 = .ok g') ↔
      (c7Game.status = .betting ∧ (∃ p ∈ c7Game.players, p.id = 2) ∧
       betLookup 2 c7Game.bets = none ∧ (0 : Int) ≤ 30 ∧
       (∀ p ∈ c7Game.players, p.id = 2 → (30 : Int) ≤ p.money))) ∧
    (∀ g', placeBid c7Game 2 30 = .ok g' → betLookup 2 g'.bets = some 30) :=
  placeBid_spec c7Game 2 30 (by decide)

/-- C8 witness: the all-pay settlement relation instantiated at a
concrete three-bid round. -/
theorem allpay_settlement_witness :
    List.Forall₂ (fun p q =>
        q.money = p.money - (betLookup p.id c8Game.bets).getD 0 ∧
        (p.id ∉ highestBiddersOf c8Game.bets → q.roundsWon = p.roundsWon) ∧
        (p.id ∈ highestBiddersOf c8Game.bets →
          q.roundsWon = p.roundsWon + creditOf c8Game.bets))
      c8Game.players (completeRound c8Game).players :=
  allpay_settlement c8Game rfl (by decide)

/-- C9 witness: the reset characterization instantiated at a finished
game whose host carries id 1. -/
theorem resetGame_spec_witness :
    ((∃ g', resetGame c9Game 1 = .ok g') ↔
      ∃ p ∈ c9Game.players, p.id = 1 ∧ p.host = true) ∧
    (∀ g', resetGame c9Game 1 = .ok g' →
      g'.players.map Player.id = c9Game.players.map Player.id ∧
      g'.players.map Player.name = c9Game.players.map Player.name ∧
      (∀ p ∈ g'.players, p.money = 100 ∧ p.roundsWon = 0) ∧
      g'.currentRound = 0 ∧ g'.status = .waiting) :=
  resetGame_spec c9Game 1 (by decide)

/-- C10 witness: the reset frame conditions instantiated at a
three-player game — `totalRounds` stays 7 instead of reverting to 5. -/
theorem resetGame_frame_witness :
    c10Reset.gameMode = c10Game.gameMode ∧
    c10Reset.totalRounds = c10Game.totalRounds ∧
    c10Reset.roundsToWin = c10Game.roundsToWin ∧
    c10Reset.players.map Player.host = c10Game.players.map Player.host ∧
    c10Reset.players.map Player.id = c10Game.players.map Player.id ∧
    c10Reset.players.map Player.name = c10Game.players.map Player.name :=
  resetGame_frame c10Game 1 c10Reset rfl

end BettingGame

